import Mathlib

/-!
Shallow embedding of the MCP sticky-notes server (src/unnamed/part_000).

The server keeps notes in Azure Table Storage when reachable and in an
in-process map otherwise.  We model:

* the in-memory fallback store `memoryNotes` as an association list
  `partitionKey -> (noteKey -> list of notes)`, mirroring a JavaScript
  object whose string keys are unique and kept in insertion order;
* the durable table as a list of `StickyNoteEntity`;
* the repository operations `stickNote`, `peelNote`, `removeNote`,
  `listNotesData`, `listNoteKeys` and the `clearNotes` tool handler;
* the HTTP POST handler's session branching (`mcpPostHandler`);
* the text renderer's `splitTextIntoLines`.

Environmental inputs of the code (the `new Date()` timestamps, the
`randomUUID()` identifiers, the resolved user partition key, and whether
the Azure backend is reachable or throwing) are passed as parameters.
Timestamps are modelled as natural numbers of milliseconds; a timestamp
that fails to parse (`isNaN(ts.getTime())` in the source) is modelled as
`Option.none`.
-/

namespace StickyNotes

/-- A note record of the in-memory fallback store: the source pushes
objects of shape `{ id, text, timestamp }`. -/
structure Note where
  id : String
  text : String
  timestamp : Nat
deriving Repr, DecidableEq

/-- An Azure table entity as written by `stickNote`: `noteKey` is the
logical grouping key (absent on legacy rows), `rowKey` the unique id.
`timestamp := none` models a stored timestamp that parses to an invalid
date. -/
structure StickyNoteEntity where
  partitionKey : String
  rowKey : String
  noteKey : Option String
  text : String
  timestamp : Option Nat
deriving Repr, DecidableEq

/-- Association-list lookup, following JavaScript object access
`obj[k]` (string keys are unique, so first match is the match). -/
def alookup {β : Type} : List (String × β) → String → Option β
  | [], _ => none
  | (k', v) :: rest, k => if k' = k then some v else alookup rest k

/-- Association-list update `obj[k] = v`: replaces the entry in place if
present, appends at the end of the insertion order otherwise. -/
def aset {β : Type} : List (String × β) → String → β → List (String × β)
  | [], k, v => [(k, v)]
  | (k', v') :: rest, k, v =>
      if k' = k then (k, v) :: rest else (k', v') :: aset rest k v

/-- Association-list deletion `delete obj[k]`. -/
def adelete {β : Type} (l : List (String × β)) (k : String) : List (String × β) :=
  l.filter (fun e => e.1 ≠ k)

/-- One partition of the in-memory store: logical key to list of notes,
in insertion order. -/
abbrev NoteGroupMap := List (String × List Note)

/-- The in-memory fallback store `memoryNotes`:
partition key to group map. -/
abbrev MemoryNotes := List (String × NoteGroupMap)

/-- Process-wide storage state: the durable table plus the in-memory
fallback map. -/
structure StoreState where
  remote : List StickyNoteEntity
  mem : MemoryNotes
deriving Repr, DecidableEq

/-- How the Azure backend behaves for the duration of a call:
`available` (connected, operations succeed), `unavailable`
(`initAzureStorage` resolved to `null`), or `failing` (a client
was obtained but every table operation throws). -/
inductive BackendMode where
  | available
  | unavailable
  | failing
deriving Repr, DecidableEq

/-- Result of `initAzureStorage`: `some ()` when a table client is
available, `none` when both credential strategies failed. -/
def initAzureStorage : BackendMode → Option Unit
  | .unavailable => none
  | _ => some ()

/-- `saveNoteInMemory` from the source: ensures the partition and key
entries exist, then pushes `{ id, text, timestamp }` at the end. -/
def saveNoteInMemory (mem : MemoryNotes) (partitionKey key : String) (n : Note) :
    MemoryNotes :=
  let userNotes := (alookup mem partitionKey).getD []
  let notes := (alookup userNotes key).getD []
  aset mem partitionKey (aset userNotes key (notes ++ [n]))

/-- The odata filter of `peelNote` and `removeNote`:
`PartitionKey eq pk and (noteKey eq key or rowKey eq key)`. -/
def matchesKeyFilter (pk key : String) (e : StickyNoteEntity) : Prop :=
  e.partitionKey = pk ∧ (e.noteKey = some key ∨ e.rowKey = key)

instance (pk key : String) (e : StickyNoteEntity) :
    Decidable (matchesKeyFilter pk key e) := by
  unfold matchesKeyFilter; infer_instance

/-- `client.upsertEntity`: replace the entity with the same partition
and row key if present, insert otherwise. -/
def upsertEntity (tbl : List StickyNoteEntity) (e : StickyNoteEntity) :
    List StickyNoteEntity :=
  if tbl.any (fun x => x.partitionKey = e.partitionKey ∧ x.rowKey = e.rowKey) then
    tbl.map (fun x =>
      if x.partitionKey = e.partitionKey ∧ x.rowKey = e.rowKey then e else x)
  else
    tbl ++ [e]

/-- The durable upsert as seen through the failure model: in `failing`
mode the table operation throws. -/
def durableUpsert (mode : BackendMode) (tbl : List StickyNoteEntity)
    (e : StickyNoteEntity) : Except String (List StickyNoteEntity) :=
  match mode with
  | .failing => .error "BackendOperationError"
  | _ => .ok (upsertEntity tbl e)

/-- The entities of the table selected by the key-or-id filter, in
table order. -/
def matchingEntities (tbl : List StickyNoteEntity) (pk key : String) :
    List StickyNoteEntity :=
  tbl.filter (fun e => matchesKeyFilter pk key e)

/-- The durable `listEntities` with the key-or-id filter; throws in
`failing` mode. -/
def durableQuery (mode : BackendMode) (tbl : List StickyNoteEntity)
    (pk key : String) : Except String (List StickyNoteEntity) :=
  match mode with
  | .failing => .error "BackendOperationError"
  | _ => .ok (matchingEntities tbl pk key)

/-- The durable `listEntities` filtered by partition only; throws in
`failing` mode. -/
def durableQueryAll (mode : BackendMode) (tbl : List StickyNoteEntity)
    (pk : String) : Except String (List StickyNoteEntity) :=
  match mode with
  | .failing => .error "BackendOperationError"
  | _ => .ok (tbl.filter (fun e => e.partitionKey = pk))

/-- `stickNote`: try the durable path; if the client is unavailable or
the durable operation throws, fall back to `saveNoteInMemory`.  The
caller-resolved partition key, the fresh row id and the `new Date()`
timestamp are parameters. -/
def stickNote (mode : BackendMode) (s : StoreState) (pk key text id : String)
    (ts : Nat) : StoreState :=
  match initAzureStorage mode with
  | some _ =>
      match durableUpsert mode s.remote ⟨pk, id, some key, text, some ts⟩ with
      | .ok tbl => { s with remote := tbl }
      | .error _ => { s with mem := saveNoteInMemory s.mem pk key ⟨id, text, ts⟩ }
  | none => { s with mem := saveNoteInMemory s.mem pk key ⟨id, text, ts⟩ }

/-- The comparison underlying the source's
`(a, b) => b.timestamp - a.timestamp` sort calls. -/
def tsDescRel (a b : Note) : Prop :=
  b.timestamp ≤ a.timestamp

instance (a b : Note) : Decidable (tsDescRel a b) := by
  unfold tsDescRel; infer_instance

/-- Stable sort by timestamp descending (most recent first, ties keep
insertion order), modelling the stable `Array.prototype.sort` of the
source; insertion sort is stable, like the JavaScript engine's sort. -/
def sortByTsDesc (l : List Note) : List Note :=
  List.insertionSort tsDescRel l

/-- Lexicographic strict comparison of character lists by code point,
modelling the default string comparison of `Array.prototype.sort`. -/
def charListLt : List Char → List Char → Bool
  | [], [] => false
  | [], _ :: _ => true
  | _ :: _, [] => false
  | a :: as, b :: bs =>
      if a < b then true else if b < a then false else charListLt as bs

/-- The string comparison used to sort keys ascending. -/
def keyLe (a b : String) : Bool :=
  !charListLt b.data a.data

/-- The key ordering as a relation. -/
def keyLeRel (a b : String) : Prop :=
  keyLe a b = true

instance (a b : String) : Decidable (keyLeRel a b) := by
  unfold keyLeRel; infer_instance

/-- Lexicographically ascending stable sort of key lists, modelling
`Object.keys(obj).sort()`. -/
def sortKeysAsc (l : List String) : List String :=
  List.insertionSort keyLeRel l

/-- The notes currently stored in the fallback map under a partition and
logical key (empty when either level is absent). -/
def memNotesAt (mem : MemoryNotes) (pk key : String) : List Note :=
  ((alookup mem pk).bind (fun g => alookup g key)).getD []

/-- `getLatestNoteFromMemory`: empty list gives `null`, otherwise the
head of a fresh copy sorted by timestamp descending. -/
def getLatestNoteFromMemory (mem : MemoryNotes) (pk key : String) : Option Note :=
  match sortByTsDesc (memNotesAt mem pk key) with
  | [] => none
  | n :: _ => some n

/-- The scan of `peelNote`'s durable branch: fold over the streamed
entities, replacing the candidate when its stored timestamp is invalid
or the new entity is strictly more recent. -/
def peelScanStep (latest : Option StickyNoteEntity) (e : StickyNoteEntity) :
    Option StickyNoteEntity :=
  match latest with
  | none => some e
  | some l =>
      match l.timestamp with
      | none => some e
      | some lt =>
          match e.timestamp with
          | none => some l
          | some et => if lt < et then some e else some l

/-- The entity selected by `peelNote`'s durable scan. -/
def peelScan (es : List StickyNoteEntity) : Option StickyNoteEntity :=
  es.foldl peelScanStep none

/-- `peelNote`: durable branch queries by logical key or legacy row id
and keeps the most recent entity (an unparseable stored timestamp is
replaced by the current time `now`); the unavailable and throwing
branches both read the in-memory fallback. -/
def peelNote (mode : BackendMode) (s : StoreState) (pk key : String) (now : Nat) :
    Option Note :=
  match initAzureStorage mode with
  | some _ =>
      match durableQuery mode s.remote pk key with
      | .ok ents =>
          (peelScan ents).map (fun e => ⟨e.rowKey, e.text, e.timestamp.getD now⟩)
      | .error _ => getLatestNoteFromMemory s.mem pk key
  | none => getLatestNoteFromMemory s.mem pk key

/-- The memory branch of `removeNote`: delete the whole logical-key
entry when present (a present entry is truthy in JavaScript even when
the array is empty), report whether an entry was deleted. -/
def removeNoteMem (mem : MemoryNotes) (partitionKey key : String) :
    Bool × MemoryNotes :=
  match alookup mem partitionKey with
  | some userNotes =>
      match alookup userNotes key with
      | some _ => (true, aset mem partitionKey (adelete userNotes key))
      | none => (false, mem)
  | none => (false, mem)

/-- `removeNote`: the durable branch deletes every entity matching the
logical key or legacy row id and returns whether any matched (the
source attempts `deleteEntity` per match and logs individual failures;
deletes are modelled as succeeding, and row keys are assumed unique in
the table as Azure guarantees).  The unavailable and throwing branches
delete the logical-key entry of the fallback map. -/
def removeNote (mode : BackendMode) (s : StoreState) (pk key : String) :
    Bool × StoreState :=
  match initAzureStorage mode with
  | some _ =>
      match durableQuery mode s.remote pk key with
      | .ok ents =>
          (!ents.isEmpty,
            { s with remote := s.remote.filter (fun e => ¬ matchesKeyFilter pk key e) })
      | .error _ =>
          let r := removeNoteMem s.mem pk key
          (r.1, { s with mem := r.2 })
  | none =>
      let r := removeNoteMem s.mem pk key
      (r.1, { s with mem := r.2 })

/-- `getGroupedFromMemory`: keys of the partition sorted ascending, each
group's items freshly sorted by timestamp descending. -/
def getGroupedFromMemory (mem : MemoryNotes) (pk : String) :
    List (String × List Note) :=
  let userNotes := (alookup mem pk).getD []
  (sortKeysAsc (userNotes.map Prod.fst)).map
    (fun k => (k, sortByTsDesc ((alookup userNotes k).getD [])))

/-- The grouping key of an entity in `listNotesData`:
`entity.noteKey || entity.rowKey` (an absent or empty `noteKey` is
falsy, so the row id is used). -/
def entityNoteKey (e : StickyNoteEntity) : String :=
  match e.noteKey with
  | some k => if k = "" then e.rowKey else k
  | none => e.rowKey

/-- One step of the durable grouping loop of `listNotesData`: push the
entity's view onto its group, creating the group on first use. -/
def groupInsert (gs : NoteGroupMap) (k : String) (n : Note) : NoteGroupMap :=
  aset gs k (((alookup gs k).getD []) ++ [n])

/-- The durable grouping loop of `listNotesData` over the streamed
entities of one partition. -/
def groupEntities (now : Nat) (es : List StickyNoteEntity) : NoteGroupMap :=
  es.foldl
    (fun gs e =>
      groupInsert gs (entityNoteKey e) ⟨e.rowKey, e.text, e.timestamp.getD now⟩)
    []

/-- `listNotesData`: the durable branch groups the partition's entities
by logical key (legacy rows group under their row id), sorts the keys
ascending and each group's items by timestamp descending; the
unavailable and throwing branches read `getGroupedFromMemory`. -/
def listNotesData (mode : BackendMode) (s : StoreState) (pk : String) (now : Nat) :
    List (String × List Note) :=
  match initAzureStorage mode with
  | some _ =>
      match durableQueryAll mode s.remote pk with
      | .ok ents =>
          let gs := groupEntities now ents
          (sortKeysAsc (gs.map Prod.fst)).map
            (fun k => (k, sortByTsDesc ((alookup gs k).getD [])))
      | .error _ => getGroupedFromMemory s.mem pk
  | none => getGroupedFromMemory s.mem pk

/-- `listNoteKeys`: the grouped keys, sorted (again). -/
def listNoteKeys (mode : BackendMode) (s : StoreState) (pk : String) (now : Nat) :
    List String :=
  sortKeysAsc ((listNotesData mode s pk now).map Prod.fst)

/-- The `clearNotes` tool handler: enumerate the grouped keys once, then
remove each key in turn, counting the removals that reported success. -/
def clearNotes (mode : BackendMode) (s : StoreState) (pk : String) (now : Nat) :
    Nat × StoreState :=
  (listNoteKeys mode s pk now).foldl
    (fun acc k =>
      let r := removeNote mode acc.2 pk k
      (if r.1 then acc.1 + 1 else acc.1, r.2))
    (0, s)

/-- `DEFAULT_NOTE_KEY` of the source. -/
def DEFAULT_NOTE_KEY : String := "default"

/-- Outcome of a tool call as the MCP client sees it: `ok` carries the
text that was stored (the source wraps it in a formatted summary),
`err` is the handler's catch branch producing a failure message. -/
inductive ToolResult where
  | ok (text : String)
  | err (msg : String)
deriving Repr, DecidableEq

/-- Whether a tool result is the error branch. -/
def ToolResult.isErrorResult : ToolResult → Bool
  | .ok _ => false
  | .err _ => true

/-- The key defaulting `key || DEFAULT_NOTE_KEY` of the `addNote`
handler: an absent or empty key is falsy and replaced by the default. -/
def resolveNoteKey (key : Option String) : String :=
  match key with
  | some k => if k = "" then DEFAULT_NOTE_KEY else k
  | none => DEFAULT_NOTE_KEY

/-- The `addNote` tool handler: default the key (`key || DEFAULT_NOTE_KEY`
treats an empty string as absent), call `stickNote`, and build a success
response.  The catch branch of the source is reachable only if something
inside the try block throws; `stickNote` swallows every durable failure,
and the image-generation failure is caught separately inside the try, so
the model's success branch is total. -/
def addNoteTool (mode : BackendMode) (s : StoreState) (pk : String)
    (key : Option String) (text id : String) (ts : Nat) : ToolResult × StoreState :=
  (.ok text, stickNote mode s pk (resolveNoteKey key) text id ts)

/-- A JSON-RPC request body as far as the POST handler inspects it:
`method = none` models a body without a string `method` field. -/
structure RpcBody where
  method : Option String
deriving Repr, DecidableEq

/-- `isInitRequest` of the MCP SDK: the body is an `initialize`
request. -/
def isInitRequest (b : RpcBody) : Bool :=
  b.method = some "initialize"

/-- The two method names served by the direct logging handlers at the
top of `mcpPostHandler`, answered without any session. -/
def isDirectLoggingMethod (b : RpcBody) : Bool :=
  b.method = some "logging/setLevel" || b.method = some "logging/getLevel"

/-- What `mcpPostHandler` decides to do with a request. -/
inductive PostOutcome where
  | directLogging
  | reuse (sessionId : String)
  | createSession (newSessionId : String)
  | badRequest
deriving Repr, DecidableEq

/-- The HTTP status the handler itself sets (the `reuse` and
`createSession` outcomes delegate the response to the transport). -/
def outcomeStatus : PostOutcome → Option Nat
  | .directLogging => some 200
  | .badRequest => some 400
  | _ => none

/-- The JSON-RPC error code the handler itself sets. -/
def outcomeErrorCode : PostOutcome → Option Int
  | .badRequest => some (-32000)
  | _ => none

/-- `mcpPostHandler`'s branching: direct logging methods bypass the
session table; a truthy `mcp-session-id` header found in the table
reuses the transport; a falsy header (missing, or the empty string)
with a session-creating body creates and registers a fresh session;
everything else is rejected with HTTP 400 / JSON-RPC -32000 and the
table is left alone.  `fresh` is the generated session id. -/
def mcpPostHandler (body : RpcBody) (sessionId : Option String)
    (table : List String) (fresh : String) : PostOutcome × List String :=
  if isDirectLoggingMethod body then
    (.directLogging, table)
  else
    match sessionId with
    | some sid =>
        if sid ≠ "" then
          if sid ∈ table then (.reuse sid, table) else (.badRequest, table)
        else
          if isInitRequest body then (.createSession fresh, table ++ [fresh])
          else (.badRequest, table)
    | none =>
        if isInitRequest body then (.createSession fresh, table ++ [fresh])
        else (.badRequest, table)

/-- Splitting a character list on a separator character, mirroring the
JavaScript `String.prototype.split` with a one-character separator. -/
def splitOnCharAux (sep : Char) : List Char → List Char → List (List Char)
  | [], acc => [acc.reverse]
  | c :: cs, acc =>
      if c = sep then acc.reverse :: splitOnCharAux sep cs []
      else splitOnCharAux sep cs (c :: acc)

/-- `s.split(sep)` for a one-character separator. -/
def splitOnChar (sep : Char) (s : String) : List String :=
  (splitOnCharAux sep s.data []).map (fun cs => ⟨cs⟩)

/-- `text.split(/\r?\n/)` of the source: split on newlines, where a
carriage return immediately before the newline is consumed. -/
def jsSplitLines (text : String) : List String :=
  (splitOnChar '\n' text).map
    (fun l => if l.data.getLast? = some '\r' then ⟨l.data.dropLast⟩ else l)

/-- The test `!textLine.trim()` of the source: the line is empty or all
whitespace. -/
def isBlankLine (s : String) : Bool :=
  s.data.all Char.isWhitespace

/-- The inner word-wrapping loop of `splitTextIntoLines`: take words in
turn, extend the current line while the measured width fits (or the
current line is empty), otherwise flush the current line and stop once
the line budget is exhausted.  Returns the accumulated lines and the
pending current line.  `measure` models `ctx.measureText(...).width`. -/
def wrapWords (measure : String → Nat) (maxWidth maxLines : Nat) :
    List String → List String → String → List String × String
  | [], lines, currentLine => (lines, currentLine)
  | word :: ws, lines, currentLine =>
      let testLine := if currentLine = "" then word else currentLine ++ " " ++ word
      if maxWidth < measure testLine ∧ currentLine ≠ "" then
        if maxLines ≤ (lines ++ [currentLine]).length then
          (lines ++ [currentLine], word)
        else
          wrapWords measure maxWidth maxLines ws (lines ++ [currentLine]) word
      else
        wrapWords measure maxWidth maxLines ws lines testLine

/-- The outer loop of `splitTextIntoLines` over the newline-split input
lines: stop at the line budget, emit an empty line for blank input
lines, word-wrap the rest and flush any pending line that still fits
the budget. -/
def splitLinesGo (measure : String → Nat) (maxWidth maxLines : Nat) :
    List String → List String → List String
  | [], lines => lines
  | tl :: tls, lines =>
      if maxLines ≤ lines.length then lines
      else if isBlankLine tl then splitLinesGo measure maxWidth maxLines tls (lines ++ [""])
      else
        let r := wrapWords measure maxWidth maxLines (splitOnChar ' ' tl) lines ""
        let lines' :=
          if r.2 ≠ "" ∧ r.1.length < maxLines then r.1 ++ [r.2] else r.1
        splitLinesGo measure maxWidth maxLines tls lines'

/-- `splitTextIntoLines` of the source. -/
def splitTextIntoLines (text : String) (measure : String → Nat)
    (maxWidth maxLines : Nat) : List String :=
  splitLinesGo measure maxWidth maxLines (jsSplitLines text) []

/-- The fallback-store invariant of claim C9: every logical key present
under a partition holds a non-empty list of notes. -/
def MemInv (mem : MemoryNotes) : Prop :=
  ∀ e ∈ mem, ∀ e' ∈ e.2, e'.2 ≠ []

instance (mem : MemoryNotes) : Decidable (MemInv mem) := by
  unfold MemInv; infer_instance

/-- States of the fallback map reachable from the empty initial map by
the mutating operations (saves and removals; reads do not mutate). -/
inductive ReachableMem : MemoryNotes → Prop where
  | init : ReachableMem []
  | save (mem : MemoryNotes) (pk key : String) (n : Note) :
      ReachableMem mem → ReachableMem (saveNoteInMemory mem pk key n)
  | remove (mem : MemoryNotes) (pk key : String) :
      ReachableMem mem → ReachableMem (removeNoteMem mem pk key).2

/-! ### Association-list lemmas -/

theorem alookup_aset_self {β : Type} (l : List (String × β)) (k : String) (v : β) :
    alookup (aset l k v) k = some v := by
  induction l with
  | nil => simp [aset, alookup]
  | cons e rest ih =>
      obtain ⟨ek, ev⟩ := e
      by_cases h : ek = k
      · simp [aset, h, alookup]
      · simp [aset, h, alookup, ih]

theorem alookup_aset_ne {β : Type} (l : List (String × β)) (k k' : String) (v : β)
    (h : k' ≠ k) : alookup (aset l k v) k' = alookup l k' := by
  induction l with
  | nil => simp [aset, alookup, Ne.symm h]
  | cons e rest ih =>
      obtain ⟨ek, ev⟩ := e
      by_cases he : ek = k
      · subst he
        simp [aset, alookup, Ne.symm h]
      · simp [aset, he, alookup, ih]

theorem alookup_adelete_self {β : Type} (l : List (String × β)) (k : String) :
    alookup (adelete l k) k = none := by
  induction l with
  | nil => simp [adelete, alookup]
  | cons e rest ih =>
      obtain ⟨ek, ev⟩ := e
      by_cases h : ek = k
      · simpa [adelete, h] using ih
      · simpa [adelete, h, alookup] using ih

theorem alookup_adelete_ne {β : Type} (l : List (String × β)) (k k' : String)
    (h : k' ≠ k) : alookup (adelete l k) k' = alookup l k' := by
  induction l with
  | nil => simp [adelete]
  | cons e rest ih =>
      obtain ⟨ek, ev⟩ := e
      by_cases he : ek = k
      · subst he
        simpa [adelete, alookup, Ne.symm h] using ih
      · by_cases he' : ek = k'
        · subst he'
          simp [adelete, List.filter_cons, he, alookup]
        · simpa [adelete, he, alookup, he'] using ih

theorem mem_of_alookup_eq_some {β : Type} {l : List (String × β)} {k : String}
    {v : β} (h : alookup l k = some v) : (k, v) ∈ l := by
  induction l with
  | nil => simp [alookup] at h
  | cons e rest ih =>
      obtain ⟨ek, ev⟩ := e
      by_cases he : ek = k
      · subst he
        simp only [alookup, if_true, eq_self_iff_true, Option.some.injEq] at h
        subst h
        exact List.mem_cons_self _ _
      · simp only [alookup, if_neg he] at h
        exact List.mem_cons_of_mem _ (ih h)

theorem alookup_isSome_of_mem_keys {β : Type} {l : List (String × β)} {k : String}
    (h : k ∈ l.map Prod.fst) : ∃ v, alookup l k = some v := by
  induction l with
  | nil => simp at h
  | cons e rest ih =>
      obtain ⟨ek, ev⟩ := e
      by_cases he : ek = k
      · exact ⟨ev, by simp [alookup, he]⟩
      · simp only [List.map_cons, List.mem_cons] at h
        rcases h with h | h
        · exact absurd h.symm he
        · simpa [alookup, he] using ih h

theorem mem_keys_of_alookup_eq_some {β : Type} {l : List (String × β)} {k : String}
    {v : β} (h : alookup l k = some v) : k ∈ l.map Prod.fst :=
  List.mem_map.mpr ⟨(k, v), mem_of_alookup_eq_some h, rfl⟩

theorem mem_aset {β : Type} {l : List (String × β)} {k : String} {v : β} {x : String × β}
    (h : x ∈ aset l k v) : x ∈ l ∨ x = (k, v) := by
  induction l with
  | nil =>
      simp only [aset, List.mem_singleton] at h
      right; exact h
  | cons e rest ih =>
      obtain ⟨ek, ev⟩ := e
      by_cases he : ek = k
      · simp only [aset, if_pos he, List.mem_cons] at h
        rcases h with h | h
        · right; exact h
        · left; exact List.mem_cons_of_mem _ h
      · simp only [aset, if_neg he, List.mem_cons] at h
        rcases h with h | h
        · left; exact h ▸ List.mem_cons_self _ _
        · rcases ih h with h' | h'
          · left; exact List.mem_cons_of_mem _ h'
          · right; exact h'

theorem mem_adelete {β : Type} {l : List (String × β)} {k : String} {x : String × β}
    (h : x ∈ adelete l k) : x ∈ l :=
  List.mem_of_mem_filter h

theorem adelete_map_fst {β : Type} (l : List (String × β)) (k : String) :
    (adelete l k).map Prod.fst = (l.map Prod.fst).filter (fun k' => k' ≠ k) := by
  induction l with
  | nil => simp [adelete]
  | cons e rest ih =>
      obtain ⟨ek, ev⟩ := e
      by_cases he : ek = k
      · simpa [adelete, List.filter, he] using ih
      · simpa [adelete, List.filter, he] using ih

/-! ### Order lemmas for the key comparison -/

theorem charListLt_asymm :
    ∀ a b : List Char, charListLt a b = true → charListLt b a = false
  | [], [], h => by simp [charListLt] at h
  | [], _ :: _, _ => rfl
  | _ :: _, [], h => by simp [charListLt] at h
  | x :: xs, y :: ys, h => by
      by_cases hxy : x < y
      · have hyx : ¬ y < x := asymm hxy
        simp [charListLt, hxy, hyx]
      · by_cases hyx : y < x
        · simp [charListLt, hxy, hyx] at h
        · have := charListLt_asymm xs ys (by simpa [charListLt, hxy, hyx] using h)
          simp [charListLt, hxy, hyx, this]

theorem charListLt_trans :
    ∀ a b c : List Char, charListLt a b = true → charListLt b c = true →
      charListLt a c = true
  | [], _, _ :: _, _, _ => rfl
  | [], [], [], h1, _ => by simp [charListLt] at h1
  | [], _ :: _, [], _, h2 => by simp [charListLt] at h2
  | _ :: _, [], _, h1, _ => by simp [charListLt] at h1
  | _ :: _, _ :: _, [], _, h2 => by simp [charListLt] at h2
  | x :: xs, y :: ys, z :: zs, h1, h2 => by
      by_cases hxy : x < y
      · by_cases hyz : y < z
        · simp [charListLt, lt_trans hxy hyz]
        · by_cases hzy : z < y
          · simp [charListLt, hyz, hzy] at h2
          · have hyzeq : y = z := le_antisymm (not_lt.mp hzy) (not_lt.mp hyz)
            subst hyzeq
            simp [charListLt, hxy]
      · by_cases hyx : y < x
        · simp [charListLt, hxy, hyx] at h1
        · have hxyeq : x = y := le_antisymm (not_lt.mp hyx) (not_lt.mp hxy)
          subst hxyeq
          by_cases hyz : x < z
          · simp [charListLt, hyz]
          · by_cases hzy : z < x
            · simp [charListLt, hyz, hzy] at h2
            · have h1' := by simpa [charListLt, hxy] using h1
              have h2' := by simpa [charListLt, hyz, hzy] using h2
              simp [charListLt, hyz, hzy, charListLt_trans xs ys zs h1' h2']

theorem charListLt_connex :
    ∀ a b : List Char, charListLt a b = false → charListLt b a = false → a = b
  | [], [], _, _ => rfl
  | [], _ :: _, h1, _ => by simp [charListLt] at h1
  | _ :: _, [], _, h2 => by simp [charListLt] at h2
  | x :: xs, y :: ys, h1, h2 => by
      by_cases hxy : x < y
      · simp [charListLt, hxy] at h1
      · by_cases hyx : y < x
        · simp [charListLt, hyx] at h2
        · have hxyeq : x = y := le_antisymm (not_lt.mp hyx) (not_lt.mp hxy)
          subst hxyeq
          have h1' := by simpa [charListLt, hxy] using h1
          have h2' := by simpa [charListLt, hxy] using h2
          rw [charListLt_connex xs ys h1' h2']

theorem keyLe_total (a b : String) : keyLeRel a b ∨ keyLeRel b a := by
  by_cases h1 : charListLt b.data a.data
  · right
    unfold keyLeRel keyLe
    simp [charListLt_asymm _ _ h1]
  · left
    unfold keyLeRel keyLe
    simp [h1]

theorem keyLe_trans {a b c : String} (h1 : keyLeRel a b) (h2 : keyLeRel b c) :
    keyLeRel a c := by
  unfold keyLeRel keyLe at h1 h2 ⊢
  simp only [Bool.not_eq_true'] at h1 h2 ⊢
  by_cases hca : charListLt c.data a.data
  · by_cases hcb : charListLt c.data b.data
    · exact absurd hcb (by simp [h2])
    · by_cases hbc : charListLt b.data c.data
      · exact absurd (charListLt_trans _ _ _ hbc hca) (by simp [h1])
      · have : b.data = c.data :=
          charListLt_connex _ _ (by simpa using hbc) (by simpa using hcb)
        rw [← this] at hca
        exact absurd hca (by simp [h1])
  · simpa using hca

instance : IsTotal String keyLeRel := ⟨keyLe_total⟩

instance : IsTrans String keyLeRel := ⟨fun _ _ _ => keyLe_trans⟩

instance : IsTotal Note tsDescRel :=
  ⟨fun a b => Or.symm (Nat.le_total a.timestamp b.timestamp)⟩

instance : IsTrans Note tsDescRel :=
  ⟨fun _ _ _ h1 h2 => Nat.le_trans h2 h1⟩

/-! ### Sorting lemmas -/

theorem sortByTsDesc_perm (l : List Note) : (sortByTsDesc l).Perm l :=
  List.perm_insertionSort tsDescRel l

theorem sortByTsDesc_sorted (l : List Note) : List.Sorted tsDescRel (sortByTsDesc l) :=
  List.sorted_insertionSort tsDescRel l

theorem sortKeysAsc_perm (l : List String) : (sortKeysAsc l).Perm l :=
  List.perm_insertionSort keyLeRel l

theorem sortKeysAsc_sorted (l : List String) : List.Sorted keyLeRel (sortKeysAsc l) :=
  List.sorted_insertionSort keyLeRel l

theorem sortByTsDesc_append_newest (l : List Note) (n : Note)
    (h : ∀ m ∈ l, m.timestamp < n.timestamp) :
    sortByTsDesc (l ++ [n]) = n :: sortByTsDesc l := by
  induction l with
  | nil => simp [sortByTsDesc]
  | cons m ms ih =>
      have hm : ¬ tsDescRel m n := by
        simp only [tsDescRel, not_le]
        exact h m (List.mem_cons_self _ _)
      have hms := ih (fun x hx => h x (List.mem_cons_of_mem _ hx))
      unfold sortByTsDesc at hms ⊢
      simp only [List.cons_append, List.insertionSort, List.append_eq]
      rw [hms, List.orderedInsert, if_neg hm]

/-! ### Store-level lemmas -/

theorem memNotesAt_save_self (mem : MemoryNotes) (pk key : String) (n : Note) :
    memNotesAt (saveNoteInMemory mem pk key n) pk key = memNotesAt mem pk key ++ [n] := by
  unfold memNotesAt saveNoteInMemory
  rw [alookup_aset_self]
  simp only [Option.some_bind]
  rw [alookup_aset_self]
  cases halo : alookup mem pk with
  | none => simp [alookup, halo]
  | some g => simp [halo]

theorem saveNoteInMemory_alookup_ne (mem : MemoryNotes) (pk pk' key : String)
    (n : Note) (h : pk' ≠ pk) :
    alookup (saveNoteInMemory mem pk key n) pk' = alookup mem pk' := by
  unfold saveNoteInMemory
  exact alookup_aset_ne _ _ _ _ h

theorem stickNote_mem_fallback (mode : BackendMode) (hmode : mode ≠ .available)
    (s : StoreState) (pk key text id : String) (ts : Nat) :
    (stickNote mode s pk key text id ts).mem =
      saveNoteInMemory s.mem pk key ⟨id, text, ts⟩ := by
  cases mode with
  | available => exact absurd rfl hmode
  | unavailable => rfl
  | failing => rfl

theorem peelNote_fallback (mode : BackendMode) (hmode : mode ≠ .available)
    (s : StoreState) (pk key : String) (now : Nat) :
    peelNote mode s pk key now = getLatestNoteFromMemory s.mem pk key := by
  cases mode with
  | available => exact absurd rfl hmode
  | unavailable => rfl
  | failing => rfl

theorem listNotesData_fallback (mode : BackendMode) (hmode : mode ≠ .available)
    (s : StoreState) (pk : String) (now : Nat) :
    listNotesData mode s pk now = getGroupedFromMemory s.mem pk := by
  cases mode with
  | available => exact absurd rfl hmode
  | unavailable => rfl
  | failing => rfl

theorem removeNote_fallback (mode : BackendMode) (hmode : mode ≠ .available)
    (s : StoreState) (pk key : String) :
    removeNote mode s pk key =
      ((removeNoteMem s.mem pk key).1, ⟨s.remote, (removeNoteMem s.mem pk key).2⟩) := by
  cases mode with
  | available => exact absurd rfl hmode
  | unavailable => rfl
  | failing => rfl

/-! ### Claim C6: partition isolation -/

theorem filter_map_upsert (e : StickyNoteEntity) (p : StickyNoteEntity → Prop)
    [DecidablePred p] (hp : ∀ x, x.partitionKey = e.partitionKey → ¬ p x) :
    ∀ tbl : List StickyNoteEntity,
      (tbl.map (fun x =>
          if x.partitionKey = e.partitionKey ∧ x.rowKey = e.rowKey then e else x)).filter
        (fun x => p x) = tbl.filter (fun x => p x)
  | [] => rfl
  | x :: rest => by
      simp only [List.map_cons, List.filter_cons]
      by_cases hx : x.partitionKey = e.partitionKey ∧ x.rowKey = e.rowKey
      · rw [if_pos hx]
        have h1 : ¬ p e := hp e rfl
        have h2 : ¬ p x := hp x hx.1
        simp [h1, h2, filter_map_upsert e p hp rest]
      · rw [if_neg hx]
        by_cases hpx : p x
        · simp [hpx, filter_map_upsert e p hp rest]
        · simp [hpx, filter_map_upsert e p hp rest]

theorem upsertEntity_filter_ne (tbl : List StickyNoteEntity) (e : StickyNoteEntity)
    (p : StickyNoteEntity → Prop) [DecidablePred p]
    (hp : ∀ x, x.partitionKey = e.partitionKey → ¬ p x) :
    (upsertEntity tbl e).filter (fun x => p x) = tbl.filter (fun x => p x) := by
  unfold upsertEntity
  by_cases hany :
      tbl.any (fun x => x.partitionKey = e.partitionKey ∧ x.rowKey = e.rowKey) = true
  · rw [if_pos hany]
    exact filter_map_upsert e p hp tbl
  · rw [if_neg hany, List.filter_append]
    have h1 : ¬ p e := hp e rfl
    simp [h1]

theorem filter_not_filter_disjoint (p q : StickyNoteEntity → Prop)
    [DecidablePred p] [DecidablePred q] (h : ∀ x, q x → ¬ p x) :
    ∀ r : List StickyNoteEntity,
      (r.filter (fun x => ¬ q x)).filter (fun x => p x) = r.filter (fun x => p x)
  | [] => rfl
  | x :: rest => by
      have ih := filter_not_filter_disjoint p q h rest
      by_cases hq : q x
      · have hp : ¬ p x := h x hq
        have e1 : (x :: rest).filter (fun x => ¬ q x) = rest.filter (fun x => ¬ q x) := by
          simp [List.filter_cons, hq]
        have e2 : (x :: rest).filter (fun x => p x) = rest.filter (fun x => p x) := by
          simp [List.filter_cons, hp]
        rw [e1, e2]
        exact ih
      · by_cases hpx : p x
        · have e1 : (x :: rest).filter (fun x => ¬ q x) =
              x :: rest.filter (fun x => ¬ q x) := by
            simp [List.filter_cons, hq]
          have e2 : (x :: rest).filter (fun x => p x) =
              x :: rest.filter (fun x => p x) := by
            simp [List.filter_cons, hpx]
          have e3 : (x :: rest.filter (fun x => ¬ q x)).filter (fun x => p x) =
              x :: (rest.filter (fun x => ¬ q x)).filter (fun x => p x) := by
            simp [List.filter_cons, hpx]
          rw [e1, e3, e2, ih]
        · have e1 : (x :: rest).filter (fun x => ¬ q x) =
              x :: rest.filter (fun x => ¬ q x) := by
            simp [List.filter_cons, hq]
          have e2 : (x :: rest).filter (fun x => p x) = rest.filter (fun x => p x) := by
            simp [List.filter_cons, hpx]
          have e3 : (x :: rest.filter (fun x => ¬ q x)).filter (fun x => p x) =
              (rest.filter (fun x => ¬ q x)).filter (fun x => p x) := by
            simp [List.filter_cons, hpx]
          rw [e1, e3, e2]
          exact ih

theorem getGroupedFromMemory_congr {mem1 mem2 : MemoryNotes} (pk : String)
    (h : alookup mem1 pk = alookup mem2 pk) :
    getGroupedFromMemory mem1 pk = getGroupedFromMemory mem2 pk := by
  unfold getGroupedFromMemory
  rw [h]

theorem getLatestNoteFromMemory_congr {mem1 mem2 : MemoryNotes} (pk key : String)
    (h : alookup mem1 pk = alookup mem2 pk) :
    getLatestNoteFromMemory mem1 pk key = getLatestNoteFromMemory mem2 pk key := by
  unfold getLatestNoteFromMemory memNotesAt
  rw [h]

theorem listNotesData_available_congr (r1 r2 : List StickyNoteEntity)
    (mem1 mem2 : MemoryNotes) (pk : String) (now : Nat)
    (h : r1.filter (fun e => e.partitionKey = pk) =
      r2.filter (fun e => e.partitionKey = pk)) :
    listNotesData .available ⟨r1, mem1⟩ pk now =
      listNotesData .available ⟨r2, mem2⟩ pk now := by
  show (sortKeysAsc ((groupEntities now (r1.filter (fun e => e.partitionKey = pk))).map
        Prod.fst)).map
      (fun k => (k, sortByTsDesc
        ((alookup (groupEntities now (r1.filter (fun e => e.partitionKey = pk))) k).getD []))) =
    (sortKeysAsc ((groupEntities now (r2.filter (fun e => e.partitionKey = pk))).map
        Prod.fst)).map
      (fun k => (k, sortByTsDesc
        ((alookup (groupEntities now (r2.filter (fun e => e.partitionKey = pk))) k).getD [])))
  rw [h]

theorem peelNote_available_congr (r1 r2 : List StickyNoteEntity)
    (mem1 mem2 : MemoryNotes) (pk key : String) (now : Nat)
    (h : matchingEntities r1 pk key = matchingEntities r2 pk key) :
    peelNote .available ⟨r1, mem1⟩ pk key now =
      peelNote .available ⟨r2, mem2⟩ pk key now := by
  show (peelScan (matchingEntities r1 pk key)).map
      (fun e => (⟨e.rowKey, e.text, e.timestamp.getD now⟩ : Note)) =
    (peelScan (matchingEntities r2 pk key)).map
      (fun e => (⟨e.rowKey, e.text, e.timestamp.getD now⟩ : Note))
  rw [h]

theorem removeNoteMem_alookup_ne (mem : MemoryNotes) (pk pk' key : String)
    (h : pk' ≠ pk) :
    alookup (removeNoteMem mem pk key).2 pk' = alookup mem pk' := by
  cases halo : alookup mem pk with
  | none =>
      have hr : removeNoteMem mem pk key = (false, mem) := by
        simp [removeNoteMem, halo]
      rw [hr]
  | some userNotes =>
      cases hkey : alookup userNotes key with
      | none =>
          have hr : removeNoteMem mem pk key = (false, mem) := by
            simp [removeNoteMem, halo, hkey]
          rw [hr]
      | some ns =>
          have hr : removeNoteMem mem pk key =
              (true, aset mem pk (adelete userNotes key)) := by
            simp [removeNoteMem, halo, hkey]
          rw [hr]
          exact alookup_aset_ne mem pk pk' _ h

theorem stickNote_available_eq (s : StoreState) (pk key text id : String) (ts : Nat) :
    stickNote .available s pk key text id ts =
      ⟨upsertEntity s.remote ⟨pk, id, some key, text, some ts⟩, s.mem⟩ := rfl

theorem removeNote_available_eq (s : StoreState) (pk key : String) :
    removeNote .available s pk key =
      (!(matchingEntities s.remote pk key).isEmpty,
        ⟨s.remote.filter (fun e => ¬ matchesKeyFilter pk key e), s.mem⟩) := rfl

/-- Claim C6: for distinct tenants `t1 ≠ t2`, a note added under
partition `t1` is never visible to tenant `t2`: `saveNoteInMemory`
leaves `t2`'s `getGroupedFromMemory` and `getLatestNoteFromMemory`
reads unchanged, and — for every backend behavior during the write and
every backend behavior during the read — `stickNote` under `t1`
(durable upsert or fallback save) and `removeNote` under `t1` (durable
delete-by-filter or fallback delete) leave `listGrouped`
(`listNotesData`) and `getLatest` (`peelNote`) of tenant `t2`
unchanged: every store operation reads and writes only inside its own
tenant partition. -/
theorem claim_C6_partition_isolation (s : StoreState)
    (t1 t2 key lookupKey text id : String) (n : Note) (h : t1 ≠ t2) (now ts : Nat) :
    getGroupedFromMemory (saveNoteInMemory s.mem t1 key n) t2 =
        getGroupedFromMemory s.mem t2 ∧
      getLatestNoteFromMemory (saveNoteInMemory s.mem t1 key n) t2 lookupKey =
        getLatestNoteFromMemory s.mem t2 lookupKey ∧
      (∀ wmode rmode : BackendMode,
        listNotesData rmode (stickNote wmode s t1 key text id ts) t2 now =
            listNotesData rmode s t2 now ∧
          peelNote rmode (stickNote wmode s t1 key text id ts) t2 lookupKey now =
            peelNote rmode s t2 lookupKey now) ∧
      (∀ wmode rmode : BackendMode,
        listNotesData rmode (removeNote wmode s t1 key).2 t2 now =
            listNotesData rmode s t2 now ∧
          peelNote rmode (removeNote wmode s t1 key).2 t2 lookupKey now =
            peelNote rmode s t2 lookupKey now) := by
  have halo : alookup (saveNoteInMemory s.mem t1 key n) t2 = alookup s.mem t2 :=
    saveNoteInMemory_alookup_ne s.mem t1 t2 key n (Ne.symm h)
  have hread_fb : ∀ (rmode : BackendMode), rmode ≠ .available → ∀ st : StoreState,
      alookup st.mem t2 = alookup s.mem t2 →
      listNotesData rmode st t2 now = listNotesData rmode s t2 now ∧
        peelNote rmode st t2 lookupKey now = peelNote rmode s t2 lookupKey now := by
    intro rmode h1 st hmem
    rw [listNotesData_fallback rmode h1 st t2 now,
      listNotesData_fallback rmode h1 s t2 now,
      peelNote_fallback rmode h1 st t2 lookupKey now,
      peelNote_fallback rmode h1 s t2 lookupKey now]
    exact ⟨getGroupedFromMemory_congr t2 hmem,
      getLatestNoteFromMemory_congr t2 lookupKey hmem⟩
  have hread_av : ∀ st : StoreState,
      st.remote.filter (fun e => e.partitionKey = t2) =
        s.remote.filter (fun e => e.partitionKey = t2) →
      matchingEntities st.remote t2 lookupKey = matchingEntities s.remote t2 lookupKey →
      listNotesData .available st t2 now = listNotesData .available s t2 now ∧
        peelNote .available st t2 lookupKey now = peelNote .available s t2 lookupKey now :=
    fun st h1 h2 =>
      ⟨listNotesData_available_congr st.remote s.remote st.mem s.mem t2 now h1,
        peelNote_available_congr st.remote s.remote st.mem s.mem t2 lookupKey now h2⟩
  have hent : ∀ x : StickyNoteEntity,
      x.partitionKey = (⟨t1, id, some key, text, some ts⟩ : StickyNoteEntity).partitionKey →
      ¬ x.partitionKey = t2 := fun x hx hx2 => h (hx.symm.trans hx2)
  have hgrouped : getGroupedFromMemory (saveNoteInMemory s.mem t1 key n) t2 =
      getGroupedFromMemory s.mem t2 := getGroupedFromMemory_congr t2 halo
  have hlatest : getLatestNoteFromMemory (saveNoteInMemory s.mem t1 key n) t2 lookupKey =
      getLatestNoteFromMemory s.mem t2 lookupKey :=
    getLatestNoteFromMemory_congr t2 lookupKey halo
  refine ⟨hgrouped, hlatest, ?_, ?_⟩
  · intro wmode rmode
    cases wmode with
    | available =>
        rw [stickNote_available_eq s t1 key text id ts]
        cases rmode with
        | available =>
            refine hread_av _ ?_ ?_
            · exact upsertEntity_filter_ne s.remote _
                (fun x => x.partitionKey = t2) hent
            · show ((upsertEntity s.remote _).filter
                  (fun e => matchesKeyFilter t2 lookupKey e)) = _
              exact upsertEntity_filter_ne s.remote _
                (fun x => matchesKeyFilter t2 lookupKey x)
                (fun x hx hmf => h (hx.symm.trans hmf.1))
        | unavailable => exact hread_fb .unavailable (by simp) _ rfl
        | failing => exact hread_fb .failing (by simp) _ rfl
    | unavailable =>
        have hst : stickNote .unavailable s t1 key text id ts =
            ⟨s.remote, saveNoteInMemory s.mem t1 key ⟨id, text, ts⟩⟩ := rfl
        rw [hst]
        cases rmode with
        | available => exact hread_av _ rfl rfl
        | unavailable =>
            exact hread_fb .unavailable (by simp) _
              (saveNoteInMemory_alookup_ne s.mem t1 t2 key _ (Ne.symm h))
        | failing =>
            exact hread_fb .failing (by simp) _
              (saveNoteInMemory_alookup_ne s.mem t1 t2 key _ (Ne.symm h))
    | failing =>
        have hst : stickNote .failing s t1 key text id ts =
            ⟨s.remote, saveNoteInMemory s.mem t1 key ⟨id, text, ts⟩⟩ := rfl
        rw [hst]
        cases rmode with
        | available => exact hread_av _ rfl rfl
        | unavailable =>
            exact hread_fb .unavailable (by simp) _
              (saveNoteInMemory_alookup_ne s.mem t1 t2 key _ (Ne.symm h))
        | failing =>
            exact hread_fb .failing (by simp) _
              (saveNoteInMemory_alookup_ne s.mem t1 t2 key _ (Ne.symm h))
  · intro wmode rmode
    cases wmode with
    | available =>
        have hre : (removeNote .available s t1 key).2 =
            ⟨s.remote.filter (fun e => ¬ matchesKeyFilter t1 key e), s.mem⟩ := rfl
        rw [hre]
        cases rmode with
        | available =>
            refine hread_av _ ?_ ?_
            · exact filter_not_filter_disjoint
                (fun x => x.partitionKey = t2) (fun x => matchesKeyFilter t1 key x)
                (fun x hq hp => h (hq.1.symm.trans hp)) s.remote
            · show ((s.remote.filter (fun e => ¬ matchesKeyFilter t1 key e)).filter
                  (fun e => matchesKeyFilter t2 lookupKey e)) = _
              exact filter_not_filter_disjoint
                (fun x => matchesKeyFilter t2 lookupKey x)
                (fun x => matchesKeyFilter t1 key x)
                (fun x hq hp => h (hq.1.symm.trans hp.1)) s.remote
        | unavailable => exact hread_fb .unavailable (by simp) _ rfl
        | failing => exact hread_fb .failing (by simp) _ rfl
    | unavailable =>
        have hre : (removeNote .unavailable s t1 key).2 =
            ⟨s.remote, (removeNoteMem s.mem t1 key).2⟩ := rfl
        rw [hre]
        cases rmode with
        | available => exact hread_av _ rfl rfl
        | unavailable =>
            exact hread_fb .unavailable (by simp) _
              (removeNoteMem_alookup_ne s.mem t1 t2 key (Ne.symm h))
        | failing =>
            exact hread_fb .failing (by simp) _
              (removeNoteMem_alookup_ne s.mem t1 t2 key (Ne.symm h))
    | failing =>
        have hre : (removeNote .failing s t1 key).2 =
            ⟨s.remote, (removeNoteMem s.mem t1 key).2⟩ := rfl
        rw [hre]
        cases rmode with
        | available => exact hread_av _ rfl rfl
        | unavailable =>
            exact hread_fb .unavailable (by simp) _
              (removeNoteMem_alookup_ne s.mem t1 t2 key (Ne.symm h))
        | failing =>
            exact hread_fb .failing (by simp) _
              (removeNoteMem_alookup_ne s.mem t1 t2 key (Ne.symm h))

/-- Witness for claim C6 at concrete distinct tenants: the memory-path
read and the fully durable add-then-list are both unaffected across the
partition boundary. -/
theorem claim_C6_partition_isolation_witness :
    getGroupedFromMemory
        (saveNoteInMemory [("user-b", [("k", [⟨"i0", "041", 7⟩])])] "user-a" "k"
          ⟨"i1", "x", 9⟩)
        "user-b" =
      getGroupedFromMemory [("user-b", [("k", [⟨"i0", "041", 7⟩])])] "user-b" ∧
    listNotesData .available
        (stickNote .available
          ⟨[⟨"user-b", "i0", some "k", "041", some 7⟩], []⟩ "user-a" "k" "x" "i1" 9)
        "user-b" 0 =
      listNotesData .available
        ⟨[⟨"user-b", "i0", some "k", "041", some 7⟩], []⟩ "user-b" 0 := by
  have hc := claim_C6_partition_isolation
    ⟨[⟨"user-b", "i0", some "k", "041", some 7⟩],
      [("user-b", [("k", [⟨"i0", "041", 7⟩])])]⟩
    "user-a" "user-b" "k" "k" "x" "i1" ⟨"i1", "x", 9⟩ (by decide) 0 9
  exact ⟨hc.1, (hc.2.2.1 .available .available).1⟩

/-! ### Claim C7: session rejection without implicit creation -/

/-- Claim C7: a POST whose body is neither an initialization request nor
one of the two direct logging methods, with a session header that is
missing or unknown to the session table, is answered with the handler's
bad-request response (HTTP 400, JSON-RPC error code -32000) and the
session table is unchanged. -/
theorem claim_C7_session_rejection (body : RpcBody) (sessionId : Option String)
    (table : List String) (fresh : String)
    (hinit : isInitRequest body = false)
    (hlog : isDirectLoggingMethod body = false)
    (hsess : ∀ sid, sessionId = some sid → sid ∉ table) :
    mcpPostHandler body sessionId table fresh = (.badRequest, table) ∧
      outcomeStatus .badRequest = some 400 ∧
      outcomeErrorCode .badRequest = some (-32000) := by
  refine ⟨?_, rfl, rfl⟩
  unfold mcpPostHandler
  rw [if_neg (by simp [hlog])]
  cases sessionId with
  | none => simp [hinit]
  | some sid =>
      by_cases hempty : sid = ""
      · subst hempty
        simp [hinit]
      · simp [hempty, hsess sid rfl, hinit]

/-- Witness for claim C7: a `tools/call` request with an unknown session
id against a one-entry table. -/
theorem claim_C7_session_rejection_witness :
    mcpPostHandler ⟨some "tools/call"⟩ (some "unknown-id") ["live-session"] "fresh-id" =
      (.badRequest, ["live-session"]) :=
  (claim_C7_session_rejection ⟨some "tools/call"⟩ (some "unknown-id")
    ["live-session"] "fresh-id" (by decide) (by decide)
    (by intro sid hs; cases hs; decide)).1

/-! ### Claim C10: line-count bound of the text renderer -/

theorem wrapWords_length_le (measure : String → Nat) (maxWidth maxLines : Nat) :
    ∀ (ws : List String) (lines : List String) (cur : String),
      lines.length < maxLines →
      (wrapWords measure maxWidth maxLines ws lines cur).1.length ≤ maxLines := by
  intro ws
  induction ws with
  | nil => intro lines cur h; exact Nat.le_of_lt h
  | cons word ws ih =>
      intro lines cur h
      simp only [wrapWords]
      by_cases hwide :
          maxWidth < measure (if cur = "" then word else cur ++ " " ++ word) ∧ cur ≠ ""
      · rw [if_pos hwide]
        by_cases hfull : maxLines ≤ (lines ++ [cur]).length
        · rw [if_pos hfull]
          simpa using h
        · rw [if_neg hfull]
          exact ih (lines ++ [cur]) word (Nat.lt_of_not_le hfull)
      · rw [if_neg hwide]
        exact ih lines _ h

theorem splitLinesGo_length_le (measure : String → Nat) (maxWidth maxLines : Nat) :
    ∀ (tls : List String) (lines : List String),
      lines.length ≤ maxLines →
      (splitLinesGo measure maxWidth maxLines tls lines).length ≤ maxLines := by
  intro tls
  induction tls with
  | nil => intro lines h; exact h
  | cons tl tls ih =>
      intro lines h
      simp only [splitLinesGo]
      by_cases hstop : maxLines ≤ lines.length
      · rw [if_pos hstop]; exact h
      · rw [if_neg hstop]
        have hlt : lines.length < maxLines := Nat.lt_of_not_le hstop
        by_cases hblank : isBlankLine tl = true
        · rw [if_pos hblank]
          exact ih (lines ++ [""]) (by simpa using hlt)
        · rw [if_neg hblank]
          apply ih
          have hwrap := wrapWords_length_le measure maxWidth maxLines
            (splitOnChar ' ' tl) lines "" hlt
          by_cases hpush :
              (wrapWords measure maxWidth maxLines (splitOnChar ' ' tl) lines "").2 ≠ "" ∧
              (wrapWords measure maxWidth maxLines (splitOnChar ' ' tl) lines "").1.length <
                maxLines
          · rw [if_pos hpush]
            simpa using hpush.2
          · rw [if_neg hpush]
            exact hwrap

/-- Claim C10: for every input text, measuring context, width and line
budget, `splitTextIntoLines` returns at most `maxLines` lines, and with
a budget of zero it returns no lines at all. -/
theorem claim_C10_line_bound (text : String) (measure : String → Nat)
    (maxWidth maxLines : Nat) :
    (splitTextIntoLines text measure maxWidth maxLines).length ≤ maxLines ∧
      splitTextIntoLines text measure maxWidth 0 = [] := by
  constructor
  · exact splitLinesGo_length_le measure maxWidth maxLines (jsSplitLines text) []
      (by simp)
  · have h := splitLinesGo_length_le measure maxWidth 0 (jsSplitLines text) [] (by simp)
    exact List.eq_nil_of_length_eq_zero (Nat.le_zero.mp h)

/-! ### Claim C8: addNote never surfaces a storage error -/

/-- Claim C8: for every backend behavior (connected, unreachable, or
throwing), the `addNote` tool handler returns a non-error result: the
handler's catch branch is unreachable for storage failures because
`stickNote` swallows every durable failure and, on both failure paths,
appends the note (with the exact text) to the in-process map. -/
theorem claim_C8_addNote_no_error (mode : BackendMode) (s : StoreState) (pk : String)
    (key : Option String) (text id : String) (ts : Nat) :
    ((addNoteTool mode s pk key text id ts).1).isErrorResult = false ∧
      memNotesAt (addNoteTool .unavailable s pk key text id ts).2.mem pk
          (resolveNoteKey key) =
        memNotesAt s.mem pk (resolveNoteKey key) ++ [⟨id, text, ts⟩] ∧
      memNotesAt (addNoteTool .failing s pk key text id ts).2.mem pk
          (resolveNoteKey key) =
        memNotesAt s.mem pk (resolveNoteKey key) ++ [⟨id, text, ts⟩] := by
  refine ⟨rfl, ?_, ?_⟩
  · show memNotesAt (stickNote .unavailable s pk (resolveNoteKey key) text id ts).mem
        pk (resolveNoteKey key) = _
    rw [stickNote_mem_fallback .unavailable (by simp) s]
    exact memNotesAt_save_self s.mem pk (resolveNoteKey key) ⟨id, text, ts⟩
  · show memNotesAt (stickNote .failing s pk (resolveNoteKey key) text id ts).mem
        pk (resolveNoteKey key) = _
    rw [stickNote_mem_fallback .failing (by simp) s]
    exact memNotesAt_save_self s.mem pk (resolveNoteKey key) ⟨id, text, ts⟩

/-! ### Claim C1: failover round-trip -/

/-- Counterexample to claim C1 as stated: with the durable backend
unreachable and a non-empty prior state, `stickNote` of text `new`
whose `new Date()` timestamp ties with an existing note's timestamp
(the source permits equal timestamps) is followed by a `peelNote` that
returns the older note's text `old`, not the just-added text: the
stable descending sort keeps the first-inserted among equal
timestamps. -/
theorem claim_C1_counterexample :
    (peelNote .unavailable
        (stickNote .unavailable
          ⟨[], saveNoteInMemory [] "user-t" "k" ⟨"id0", "old", 5⟩⟩
          "user-t" "k" "new" "id1" 5)
        "user-t" "k" 0).map Note.text = some "old" ∧
      ("old" : String) ≠ "new" := by
  exact ⟨by decide, by decide⟩

/-- Claim C1, amended: the failover round-trip holds whenever the new
note's timestamp is strictly greater than that of every note already
stored under the same tenant and key (in particular whenever the key is
fresh); on a timestamp tie the earliest tied note's text is returned
instead.  With the durable backend unreachable or throwing, `stickNote`
followed by `peelNote` for the same key then returns exactly the
just-added text. -/
theorem claim_C1_failover_roundtrip (mode : BackendMode) (hmode : mode ≠ .available)
    (s : StoreState) (pk key text id : String) (ts now : Nat)
    (hfresh : ∀ m ∈ memNotesAt s.mem pk key, m.timestamp < ts) :
    (peelNote mode (stickNote mode s pk key text id ts) pk key now).map Note.text =
      some text := by
  rw [peelNote_fallback mode hmode _ pk key now,
    stickNote_mem_fallback mode hmode s pk key text id ts]
  unfold getLatestNoteFromMemory
  rw [memNotesAt_save_self, sortByTsDesc_append_newest _ _ hfresh]
  rfl

/-- Witness for the amended claim C1: a strictly newer note added on
the throwing fallback path is read back unchanged. -/
theorem claim_C1_failover_roundtrip_witness :
    (peelNote .failing
        (stickNote .failing
          ⟨[], saveNoteInMemory [] "user-t" "k" ⟨"id0", "old", 5⟩⟩
          "user-t" "k" "new" "id1" 9)
        "user-t" "k" 0).map Note.text = some "new" :=
  claim_C1_failover_roundtrip .failing (by simp)
    ⟨[], saveNoteInMemory [] "user-t" "k" ⟨"id0", "old", 5⟩⟩
    "user-t" "k" "new" "id1" 9 0 (by decide)

/-! ### Claim C4: listGrouped ordering -/

theorem groupedView_sorted (base : NoteGroupMap) :
    List.Sorted keyLeRel
        (((sortKeysAsc (base.map Prod.fst)).map
          (fun k => (k, sortByTsDesc ((alookup base k).getD [])))).map Prod.fst) ∧
      ∀ g ∈ (sortKeysAsc (base.map Prod.fst)).map
          (fun k => (k, sortByTsDesc ((alookup base k).getD []))),
        List.Sorted tsDescRel g.2 := by
  constructor
  · have hmap :
        (((sortKeysAsc (base.map Prod.fst)).map
          (fun k => (k, sortByTsDesc ((alookup base k).getD [])))).map Prod.fst) =
          sortKeysAsc (base.map Prod.fst) := by
      rw [List.map_map]
      exact List.map_id _
    rw [hmap]
    exact sortKeysAsc_sorted _
  · intro g hg
    obtain ⟨k, _, rfl⟩ := List.mem_map.mp hg
    exact sortByTsDesc_sorted _

/-- Claim C4: in every backend mode and on every state, `listNotesData`
returns the groups with keys ascending and each group's items sorted by
timestamp descending; in particular three notes added under one key
with strictly increasing timestamps come back newest-first. -/
theorem claim_C4_listGrouped_ordering (mode : BackendMode) (s : StoreState)
    (pk : String) (now : Nat) :
    List.Sorted keyLeRel ((listNotesData mode s pk now).map Prod.fst) ∧
      (∀ g ∈ listNotesData mode s pk now, List.Sorted tsDescRel g.2) ∧
      listNotesData .unavailable
          ⟨[], saveNoteInMemory
            (saveNoteInMemory
              (saveNoteInMemory [] "user-p3" "k" ⟨"1", "a", 1⟩)
              "user-p3" "k" ⟨"2", "b", 2⟩)
            "user-p3" "k" ⟨"3", "c", 3⟩⟩
          "user-p3" 0 =
        [("k", [⟨"3", "c", 3⟩, ⟨"2", "b", 2⟩, ⟨"1", "a", 1⟩])] := by
  refine ⟨?_, ?_, by decide⟩ <;>
    cases mode with
    | available =>
        first
        | exact (groupedView_sorted
            (groupEntities now (s.remote.filter (fun e => e.partitionKey = pk)))).1
        | exact (groupedView_sorted
            (groupEntities now (s.remote.filter (fun e => e.partitionKey = pk)))).2
    | unavailable =>
        first
        | exact (groupedView_sorted ((alookup s.mem pk).getD [])).1
        | exact (groupedView_sorted ((alookup s.mem pk).getD [])).2
    | failing =>
        first
        | exact (groupedView_sorted ((alookup s.mem pk).getD [])).1
        | exact (groupedView_sorted ((alookup s.mem pk).getD [])).2

/-- Witness for claim C4: the items of the single group of the concrete
three-note state are sorted newest-first. -/
theorem claim_C4_listGrouped_ordering_witness :
    List.Sorted tsDescRel
      ([("k", [⟨"3", "c", 3⟩, ⟨"2", "b", 2⟩, ⟨"1", "a", 1⟩])] :
          List (String × List Note))[0].2 := by
  have h := (claim_C4_listGrouped_ordering .unavailable
    ⟨[], saveNoteInMemory
      (saveNoteInMemory
        (saveNoteInMemory [] "user-p3" "k" ⟨"1", "a", 1⟩)
        "user-p3" "k" ⟨"2", "b", 2⟩)
      "user-p3" "k" ⟨"3", "c", 3⟩⟩
    "user-p3" 0)
  have hmem := h.2.1 ("k", [⟨"3", "c", 3⟩, ⟨"2", "b", 2⟩, ⟨"1", "a", 1⟩])
    (by rw [h.2.2]; exact List.mem_singleton.mpr rfl)
  simpa using hmem

/-! ### Claim C2: getLatest selection rule -/

theorem peelScan_foldl_spec :
    ∀ (l : List StickyNoteEntity) (m : StickyNoteEntity),
      m.timestamp.isSome = true → (∀ e ∈ l, e.timestamp.isSome = true) →
      ∃ r pre post,
        List.foldl peelScanStep (some m) l = some r ∧
        m :: l = pre ++ r :: post ∧
        (∀ e ∈ pre, e.timestamp.getD 0 < r.timestamp.getD 0) ∧
        (∀ e ∈ m :: l, e.timestamp.getD 0 ≤ r.timestamp.getD 0)
  | [], m, _, _ => by
      refine ⟨m, [], [], rfl, rfl, by simp, ?_⟩
      intro e he
      rw [List.mem_singleton.mp he]
  | e :: l', m, hm, hl => by
      obtain ⟨lt, hlt⟩ := Option.isSome_iff_exists.mp hm
      obtain ⟨et, het⟩ := Option.isSome_iff_exists.mp (hl e (List.mem_cons_self _ _))
      have hl' : ∀ x ∈ l', x.timestamp.isSome = true :=
        fun x hx => hl x (List.mem_cons_of_mem _ hx)
      by_cases hcmp : lt < et
      · have hstep : peelScanStep (some m) e = some e := by
          simp [peelScanStep, hlt, het, hcmp]
        obtain ⟨r, pre, post, hfold, hdec, hpre, hmax⟩ :=
          peelScan_foldl_spec l' e (by simp [het]) hl'
        have hmr : m.timestamp.getD 0 < r.timestamp.getD 0 := by
          have h1 : e.timestamp.getD 0 ≤ r.timestamp.getD 0 :=
            hmax e (List.mem_cons_self _ _)
          have h2 : m.timestamp.getD 0 < e.timestamp.getD 0 := by
            simp [hlt, het, hcmp]
          exact lt_of_lt_of_le h2 h1
        refine ⟨r, m :: pre, post, ?_, ?_, ?_, ?_⟩
        · simpa [List.foldl_cons, hstep] using hfold
        · simp [List.cons_append, hdec]
        · intro x hx
          rcases List.mem_cons.mp hx with hx | hx
          · rw [hx]; exact hmr
          · exact hpre x hx
        · intro x hx
          rcases List.mem_cons.mp hx with hx | hx
          · rw [hx]; exact le_of_lt hmr
          · exact hmax x hx
      · have hstep : peelScanStep (some m) e = some m := by
          simp [peelScanStep, hlt, het, hcmp]
        obtain ⟨r, pre, post, hfold, hdec, hpre, hmax⟩ :=
          peelScan_foldl_spec l' m hm hl'
        have hermax : e.timestamp.getD 0 ≤ r.timestamp.getD 0 := by
          have h1 : e.timestamp.getD 0 ≤ m.timestamp.getD 0 := by
            simp [hlt, het]
            exact le_of_not_lt hcmp
          exact le_trans h1 (hmax m (List.mem_cons_self _ _))
        cases pre with
        | nil =>
            obtain ⟨hrm, hpost⟩ : r = m ∧ post = l' := by
              have := hdec
              simp only [List.nil_append, List.cons.injEq] at this
              exact ⟨this.1.symm, this.2.symm⟩
            refine ⟨r, [], e :: post, ?_, ?_, by simp, ?_⟩
            · simpa [List.foldl_cons, hstep] using hfold
            · simp [hrm, hpost]
            · intro x hx
              rcases List.mem_cons.mp hx with hx | hx
              · rw [hx]; exact hmax m (List.mem_cons_self _ _)
              · rcases List.mem_cons.mp hx with hx | hx
                · rw [hx]; exact hermax
                · exact hmax x (List.mem_cons_of_mem _ (hpost ▸ hx))
        | cons p pre₂ =>
            obtain ⟨hpm, hl'dec⟩ : p = m ∧ l' = pre₂ ++ r :: post := by
              have := hdec
              simp only [List.cons_append, List.cons.injEq] at this
              exact ⟨this.1.symm, this.2⟩
            have hmlt : m.timestamp.getD 0 < r.timestamp.getD 0 :=
              hpre p (List.mem_cons_self _ _) |>.trans_le (le_refl _) |> (hpm ▸ ·)
            refine ⟨r, m :: e :: pre₂, post, ?_, ?_, ?_, ?_⟩
            · simpa [List.foldl_cons, hstep] using hfold
            · simp [List.cons_append, hl'dec]
            · intro x hx
              rcases List.mem_cons.mp hx with hx | hx
              · rw [hx]; exact hmlt
              · rcases List.mem_cons.mp hx with hx | hx
                · rw [hx]
                  have h1 : e.timestamp.getD 0 ≤ m.timestamp.getD 0 := by
                    simp [hlt, het]
                    exact le_of_not_lt hcmp
                  exact lt_of_le_of_lt h1 hmlt
                · exact hpre x (List.mem_cons_of_mem _ hx)
            · intro x hx
              rcases List.mem_cons.mp hx with hx | hx
              · rw [hx]; exact hmax m (List.mem_cons_self _ _)
              · rcases List.mem_cons.mp hx with hx | hx
                · rw [hx]; exact hermax
                · exact hmax x (List.mem_cons_of_mem _ (hl'dec ▸ hx))

theorem sortByTsDesc_head_spec :
    ∀ (l : List Note) (r : Note) (rest : List Note),
      sortByTsDesc l = r :: rest →
      ∃ pre post, l = pre ++ r :: post ∧
        (∀ m ∈ pre, m.timestamp < r.timestamp) ∧
        (∀ m ∈ l, m.timestamp ≤ r.timestamp)
  | [], r, rest, h => by simp [sortByTsDesc] at h
  | x :: xs, r, rest, h => by
      rw [show sortByTsDesc (x :: xs) =
          List.orderedInsert tsDescRel x (sortByTsDesc xs) from rfl] at h
      cases hs : sortByTsDesc xs with
      | nil =>
          rw [hs] at h
          simp only [List.orderedInsert, List.cons.injEq] at h
          have hx : xs = [] := by
            have hperm : List.Perm ([] : List Note) xs := hs ▸ sortByTsDesc_perm xs
            exact hperm.symm.eq_nil
          subst hx
          refine ⟨[], [], by simp [h.1], by simp, ?_⟩
          intro m hm
          rw [List.mem_singleton.mp hm, h.1]
      | cons r' rest' =>
          rw [hs] at h
          obtain ⟨pre', post', hdec, hpre, hmax⟩ :=
            sortByTsDesc_head_spec xs r' rest' hs
          by_cases hc : tsDescRel x r'
          · rw [List.orderedInsert, if_pos hc] at h
            have hr : r = x := (List.cons.injEq _ _ _ _ |>.mp h).1.symm
            subst hr
            refine ⟨[], xs, by simp, by simp, ?_⟩
            intro m hm
            rcases List.mem_cons.mp hm with hm | hm
            · rw [hm]
            · exact le_trans (hmax m hm) hc
          · rw [List.orderedInsert, if_neg hc] at h
            have hr : r = r' := (List.cons.injEq _ _ _ _ |>.mp h).1.symm
            subst hr
            have hx : x.timestamp < r.timestamp := by
              simpa [tsDescRel, not_le] using hc
            refine ⟨x :: pre', post', by simp [hdec], ?_, ?_⟩
            · intro m hm
              rcases List.mem_cons.mp hm with hm | hm
              · rw [hm]; exact hx
              · exact hpre m hm
            · intro m hm
              rcases List.mem_cons.mp hm with hm | hm
              · rw [hm]; exact le_of_lt hx
              · exact hmax m hm

/-- Counterexample to claim C2 as stated: two matching entities with
equal valid timestamps; the durable scan of `peelNote` keeps the one
encountered FIRST (the source replaces its candidate only on a strictly
greater timestamp), not the one encountered last as claimed. -/
theorem claim_C2_counterexample :
    (peelNote .available
        ⟨[⟨"p", "r1", some "k", "first", some 5⟩,
          ⟨"p", "r2", some "k", "second", some 5⟩], []⟩
        "p" "k" 0).map Note.text = some "first" ∧
      ("first" : String) ≠ "second" := ⟨by decide, by decide⟩

/-- Claim C2, amended: `peelNote`'s durable branch considers exactly
the partition's records matching the logical key or (for legacy
callers) the record id, and returns a record with the maximum
`createdAt`; when several matching records share the maximal timestamp,
the one encountered FIRST during the scan is returned (provided the
stored timestamps parse as valid dates; a candidate with an invalid
timestamp is always replaced).  The in-memory branch likewise returns
the first-stored note among those sharing the maximal timestamp. -/
theorem claim_C2_getLatest_selection (s : StoreState) (pk key : String) (now : Nat)
    (hvalid : ∀ e ∈ matchingEntities s.remote pk key, e.timestamp.isSome = true) :
    (peelNote .available s pk key now = none ↔ matchingEntities s.remote pk key = []) ∧
      (∀ r, peelScan (matchingEntities s.remote pk key) = some r →
        (matchesKeyFilter pk key r ∧ r ∈ s.remote) ∧
        ∃ pre post, matchingEntities s.remote pk key = pre ++ r :: post ∧
          (∀ e ∈ pre, e.timestamp.getD 0 < r.timestamp.getD 0) ∧
          (∀ e ∈ matchingEntities s.remote pk key,
            e.timestamp.getD 0 ≤ r.timestamp.getD 0)) ∧
      (∀ (mem : MemoryNotes) (r : Note), getLatestNoteFromMemory mem pk key = some r →
        ∃ pre post, memNotesAt mem pk key = pre ++ r :: post ∧
          (∀ m ∈ pre, m.timestamp < r.timestamp) ∧
          (∀ m ∈ memNotesAt mem pk key, m.timestamp ≤ r.timestamp)) := by
  have hpeel : peelNote .available s pk key now =
      (peelScan (matchingEntities s.remote pk key)).map
        (fun e => ⟨e.rowKey, e.text, e.timestamp.getD now⟩) := rfl
  refine ⟨?_, ?_, ?_⟩
  · rw [hpeel]
    cases hm : matchingEntities s.remote pk key with
    | nil => simp [peelScan]
    | cons e l' =>
        obtain ⟨r, pre, post, hfold, _, _, _⟩ :=
          peelScan_foldl_spec l' e
            (hvalid e (hm ▸ List.mem_cons_self _ _))
            (fun x hx => hvalid x (hm ▸ List.mem_cons_of_mem _ hx))
        have : peelScan (e :: l') = some r := by
          simpa [peelScan, List.foldl_cons, peelScanStep] using hfold
        simp [this]
  · intro r hr
    cases hm : matchingEntities s.remote pk key with
    | nil => rw [hm] at hr; simp [peelScan] at hr
    | cons e l' =>
        rw [hm] at hr hvalid
        obtain ⟨r', pre, post, hfold, hdec, hpre, hmax⟩ :=
          peelScan_foldl_spec l' e
            (hvalid e (List.mem_cons_self _ _))
            (fun x hx => hvalid x (List.mem_cons_of_mem _ hx))
        have hfold' : peelScan (e :: l') = some r' := by
          simpa [peelScan, List.foldl_cons, peelScanStep] using hfold
        have hrr : r' = r := by
          rw [hfold'] at hr
          exact Option.some.injEq _ _ ▸ hr ▸ rfl
        subst hrr
        have hrmem : r' ∈ matchingEntities s.remote pk key := by
          rw [hm, hdec]
          exact List.mem_append_right _ (List.mem_cons_self _ _)
        have hfilt := List.mem_filter.mp hrmem
        refine ⟨⟨by simpa using hfilt.2, hfilt.1⟩, pre, post, hdec, hpre, hmax⟩
  · intro mem r hr
    unfold getLatestNoteFromMemory at hr
    cases hs : sortByTsDesc (memNotesAt mem pk key) with
    | nil => rw [hs] at hr; exact absurd hr (by simp)
    | cons n rest =>
        rw [hs] at hr
        have hn : n = r := by simpa using hr
        subst hn
        exact sortByTsDesc_head_spec _ n rest hs

/-- Witness for the amended claim C2 at a concrete two-entity store. -/
theorem claim_C2_getLatest_selection_witness :
    peelNote .available
        ⟨[⟨"p", "r1", some "k", "first", some 5⟩,
          ⟨"p", "r2", some "k", "second", some 5⟩], []⟩
        "p" "k" 0 = none ↔
      matchingEntities
        [⟨"p", "r1", some "k", "first", some 5⟩,
          ⟨"p", "r2", some "k", "second", some 5⟩] "p" "k" = [] :=
  (claim_C2_getLatest_selection
    ⟨[⟨"p", "r1", some "k", "first", some 5⟩,
      ⟨"p", "r2", some "k", "second", some 5⟩], []⟩
    "p" "k" 0 (by decide)).1

/-! ### Claim C3: removeByKey deletes the whole logical group -/

theorem removeNoteMem_spec (mem : MemoryNotes) (pk key : String) (hinv : MemInv mem) :
    ((removeNoteMem mem pk key).1 = true ↔ memNotesAt mem pk key ≠ []) ∧
      memNotesAt (removeNoteMem mem pk key).2 pk key = [] ∧
      ∀ pk' key', pk' ≠ pk ∨ key' ≠ key →
        memNotesAt (removeNoteMem mem pk key).2 pk' key' = memNotesAt mem pk' key' := by
  cases halo : alookup mem pk with
  | none =>
      have hr : removeNoteMem mem pk key = (false, mem) := by
        simp [removeNoteMem, halo]
      rw [hr]
      refine ⟨?_, ?_, fun pk' key' _ => rfl⟩
      · simp [memNotesAt, halo]
      · simp [memNotesAt, halo]
  | some userNotes =>
      cases hkey : alookup userNotes key with
      | none =>
          have hr : removeNoteMem mem pk key = (false, mem) := by
            simp [removeNoteMem, halo, hkey]
          rw [hr]
          refine ⟨?_, ?_, fun pk' key' _ => rfl⟩
          · simp [memNotesAt, halo, hkey]
          · simp [memNotesAt, halo, hkey]
      | some ns =>
          have hr : removeNoteMem mem pk key =
              (true, aset mem pk (adelete userNotes key)) := by
            simp [removeNoteMem, halo, hkey]
          have hns : ns ≠ [] :=
            hinv (pk, userNotes) (mem_of_alookup_eq_some halo)
              (key, ns) (mem_of_alookup_eq_some hkey)
          rw [hr]
          refine ⟨?_, ?_, ?_⟩
          · simp [memNotesAt, halo, hkey, hns]
          · simp [memNotesAt, alookup_aset_self, alookup_adelete_self]
          · intro pk' key' hne
            by_cases hpk : pk' = pk
            · subst hpk
              rcases hne with hne | hne
              · exact absurd rfl hne
              · simp [memNotesAt, alookup_aset_self, halo,
                  alookup_adelete_ne userNotes key key' hne]
            · simp [memNotesAt, alookup_aset_ne mem pk pk' _ hpk]

/-- Counterexample to claim C3 as stated: with the durable backend
unreachable, a record whose unique id (`rowid1`) matches the lookup key
but whose logical key (`g`) does not is NOT deleted by `removeNote`,
and `false` is returned, although the claim requires every record
matching by logical key or legacy id to be deleted: the in-memory
fallback branch matches only the logical key. -/
theorem claim_C3_counterexample :
    (removeNote .unavailable
        ⟨[], saveNoteInMemory [] "user-t" "g" ⟨"rowid1", "txt", 1⟩⟩
        "user-t" "rowid1").1 = false ∧
      memNotesAt
        (removeNote .unavailable
          ⟨[], saveNoteInMemory [] "user-t" "g" ⟨"rowid1", "txt", 1⟩⟩
          "user-t" "rowid1").2.mem
        "user-t" "g" = [⟨"rowid1", "txt", 1⟩] := ⟨by decide, by decide⟩

/-- Claim C3, amended: on the durable path `removeNote` deletes every
record in the partition whose logical key or legacy row id matches and
returns true iff at least one record matched; on the in-memory fallback
path it deletes exactly the records stored under the logical key
(legacy-id matching does not apply there), leaves every other tenant
and key untouched, and — in every state satisfying the non-empty-group
invariant, which all reachable states do — returns true iff at least
one such record existed; a subsequent `getLatest` for the key returns
`None`. -/
theorem claim_C3_removeByKey_group (s : StoreState) (pk key : String) (now : Nat)
    (hinv : MemInv s.mem) :
    ((removeNote .available s pk key).1 = true ↔
        ∃ e ∈ s.remote, matchesKeyFilter pk key e) ∧
      (removeNote .available s pk key).2.remote =
        s.remote.filter (fun e => ¬ matchesKeyFilter pk key e) ∧
      ((removeNote .unavailable s pk key).1 = true ↔ memNotesAt s.mem pk key ≠ []) ∧
      memNotesAt (removeNote .unavailable s pk key).2.mem pk key = [] ∧
      (∀ pk' key', pk' ≠ pk ∨ key' ≠ key →
        memNotesAt (removeNote .unavailable s pk key).2.mem pk' key' =
          memNotesAt s.mem pk' key') ∧
      peelNote .unavailable (removeNote .unavailable s pk key).2 pk key now = none := by
  have hspec := removeNoteMem_spec s.mem pk key hinv
  have hfb := removeNote_fallback .unavailable (by simp) s pk key
  refine ⟨?_, rfl, ?_, ?_, ?_, ?_⟩
  · show (!(matchingEntities s.remote pk key).isEmpty) = true ↔ _
    unfold matchingEntities
    simp [List.isEmpty_iff, List.filter_eq_nil_iff]
  · rw [hfb]; exact hspec.1
  · rw [hfb]; exact hspec.2.1
  · intro pk' key' hne
    rw [hfb]
    exact hspec.2.2 pk' key' hne
  · rw [hfb, peelNote_fallback .unavailable (by simp)]
    unfold getLatestNoteFromMemory
    rw [show memNotesAt (removeNoteMem s.mem pk key).2 pk key = [] from hspec.2.1]
    rfl

/-- Witness for the amended claim C3: the P5 scenario — two notes under
key `idea`, then `removeNote` returns true and `peelNote` returns
`None`. -/
theorem claim_C3_removeByKey_group_witness :
    (removeNote .unavailable
        ⟨[], saveNoteInMemory (saveNoteInMemory [] "user-u" "idea" ⟨"1", "a", 1⟩)
          "user-u" "idea" ⟨"2", "b", 2⟩⟩
        "user-u" "idea").1 = true ∧
      peelNote .unavailable
        (removeNote .unavailable
          ⟨[], saveNoteInMemory (saveNoteInMemory [] "user-u" "idea" ⟨"1", "a", 1⟩)
            "user-u" "idea" ⟨"2", "b", 2⟩⟩
          "user-u" "idea").2 "user-u" "idea" 0 = none := by
  have h := claim_C3_removeByKey_group
    ⟨[], saveNoteInMemory (saveNoteInMemory [] "user-u" "idea" ⟨"1", "a", 1⟩)
      "user-u" "idea" ⟨"2", "b", 2⟩⟩
    "user-u" "idea" 0 (by decide)
  exact ⟨h.2.2.1.mpr (by decide), h.2.2.2.2.2⟩

/-! ### Claim C5: removeAll as key enumeration plus per-key removal -/

theorem grouped_map_fst (base : NoteGroupMap) :
    ((sortKeysAsc (base.map Prod.fst)).map
      (fun k => (k, sortByTsDesc ((alookup base k).getD [])))).map Prod.fst =
      sortKeysAsc (base.map Prod.fst) := by
  rw [List.map_map]
  exact List.map_id _

theorem adelete_filter_notmem (g : NoteGroupMap) (k : String) (ks : List String) :
    (adelete g k).filter (fun e => e.1 ∉ ks) =
      g.filter (fun e => e.1 ∉ k :: ks) := by
  induction g with
  | nil => rfl
  | cons e rest ih =>
      by_cases h1 : e.1 = k
      · have : e.1 ∈ k :: ks := by simp [h1]
        simp [adelete, List.filter_cons, h1, this] at ih ⊢
        exact ih
      · by_cases h2 : e.1 ∈ ks
        · have : e.1 ∈ k :: ks := by simp [h2]
          simp [adelete, List.filter_cons, h1, h2, this] at ih ⊢
          exact ih
        · have : e.1 ∉ k :: ks := by simp [h1, h2]
          simp [adelete, List.filter_cons, h1, h2, this] at ih ⊢
          exact ih

theorem clearFold_spec (pk : String) :
    ∀ (ks : List String) (s : StoreState) (cnt : Nat) (g : NoteGroupMap),
      alookup s.mem pk = some g →
      ks.Nodup → (∀ k ∈ ks, k ∈ g.map Prod.fst) →
      (ks.foldl
          (fun acc k =>
            let r := removeNote .unavailable acc.2 pk k
            (if r.1 then acc.1 + 1 else acc.1, r.2))
          (cnt, s)).1 = cnt + ks.length ∧
        alookup (ks.foldl
            (fun acc k =>
              let r := removeNote .unavailable acc.2 pk k
              (if r.1 then acc.1 + 1 else acc.1, r.2))
            (cnt, s)).2.mem pk = some (g.filter (fun e => e.1 ∉ ks)) ∧
        (ks.foldl
            (fun acc k =>
              let r := removeNote .unavailable acc.2 pk k
              (if r.1 then acc.1 + 1 else acc.1, r.2))
            (cnt, s)).2.remote = s.remote ∧
        ∀ p, p ≠ pk →
          alookup (ks.foldl
              (fun acc k =>
                let r := removeNote .unavailable acc.2 pk k
                (if r.1 then acc.1 + 1 else acc.1, r.2))
              (cnt, s)).2.mem p = alookup s.mem p
  | [], s, cnt, g, halo, _, _ => by
      refine ⟨by simp, ?_, rfl, fun p _ => rfl⟩
      simpa [List.filter_true] using halo
  | k :: ks', s, cnt, g, halo, hnd, hmem => by
      obtain ⟨ns, hns⟩ := alookup_isSome_of_mem_keys (hmem k (List.mem_cons_self _ _))
      have hrm : removeNoteMem s.mem pk k = (true, aset s.mem pk (adelete g k)) := by
        simp [removeNoteMem, halo, hns]
      have hstep : removeNote .unavailable s pk k =
          (true, ⟨s.remote, aset s.mem pk (adelete g k)⟩) := by
        rw [removeNote_fallback .unavailable (by simp) s pk k, hrm]
      have hnd' := List.nodup_cons.mp hnd
      have halo' : alookup (⟨s.remote, aset s.mem pk (adelete g k)⟩ : StoreState).mem pk =
          some (adelete g k) := alookup_aset_self _ _ _
      have hmem' : ∀ k' ∈ ks', k' ∈ (adelete g k).map Prod.fst := by
        intro k' hk'
        rw [adelete_map_fst]
        refine List.mem_filter.mpr ⟨hmem k' (List.mem_cons_of_mem _ hk'), ?_⟩
        have : k' ≠ k := fun heq => hnd'.1 (heq ▸ hk')
        simp [this]
      obtain ⟨hcnt, hlook, hremote, hframe⟩ :=
        clearFold_spec pk ks' ⟨s.remote, aset s.mem pk (adelete g k)⟩ (cnt + 1)
          (adelete g k) halo' hnd'.2 hmem'
      have hfold :
          ((k :: ks').foldl
            (fun acc k =>
              let r := removeNote .unavailable acc.2 pk k
              (if r.1 then acc.1 + 1 else acc.1, r.2))
            (cnt, s)) =
          (ks'.foldl
            (fun acc k =>
              let r := removeNote .unavailable acc.2 pk k
              (if r.1 then acc.1 + 1 else acc.1, r.2))
            (cnt + 1, ⟨s.remote, aset s.mem pk (adelete g k)⟩)) := by
        simp [List.foldl_cons, hstep]
      refine ⟨?_, ?_, ?_, ?_⟩
      · rw [hfold, hcnt]
        simp [Nat.add_assoc, Nat.add_comm 1]
      · rw [hfold, hlook, adelete_filter_notmem]
      · rw [hfold, hremote]
      · intro p hp
        rw [hfold, hframe p hp]
        exact alookup_aset_ne s.mem pk p _ hp

/-- Claim C5: the `clearNotes` handler enumerates the grouped keys and
removes each in turn; when the partition's key map has no duplicate
keys (always true of a JavaScript object), the reported deleted count
equals the number of groups and a subsequent `listGrouped` of the
tenant is empty. -/
theorem claim_C5_removeAll_count (s : StoreState) (pk : String) (now : Nat)
    (hkeys : ((((alookup s.mem pk).getD [] : NoteGroupMap)).map Prod.fst).Nodup) :
    (clearNotes .unavailable s pk now).1 =
        (listNotesData .unavailable s pk now).length ∧
      listNotesData .unavailable (clearNotes .unavailable s pk now).2 pk now = [] := by
  cases halo : alookup s.mem pk with
  | none =>
      have hg : getGroupedFromMemory s.mem pk = [] := by
        unfold getGroupedFromMemory
        rw [halo]
        rfl
      have hkeys0 : listNoteKeys .unavailable s pk now = [] := by
        unfold listNoteKeys
        rw [listNotesData_fallback .unavailable (by simp) s pk now, hg]
        rfl
      have hclear : clearNotes .unavailable s pk now = (0, s) := by
        unfold clearNotes
        rw [hkeys0]
        rfl
      rw [hclear, listNotesData_fallback .unavailable (by simp) s pk now, hg]
      exact ⟨rfl, rfl⟩
  | some g =>
      have hbase : ((alookup s.mem pk).getD [] : NoteGroupMap) = g := by rw [halo]; rfl
      have hgrouped : getGroupedFromMemory s.mem pk =
          (sortKeysAsc (g.map Prod.fst)).map
            (fun k => (k, sortByTsDesc ((alookup g k).getD []))) := by
        unfold getGroupedFromMemory
        rw [halo]
        rfl
      have hlist : listNotesData .unavailable s pk now =
          (sortKeysAsc (g.map Prod.fst)).map
            (fun k => (k, sortByTsDesc ((alookup g k).getD []))) := by
        rw [listNotesData_fallback .unavailable (by simp) s pk now, hgrouped]
      have hkdef : listNoteKeys .unavailable s pk now =
          sortKeysAsc (sortKeysAsc (g.map Prod.fst)) := by
        unfold listNoteKeys
        rw [hlist, grouped_map_fst]
      have hperm : (listNoteKeys .unavailable s pk now).Perm (g.map Prod.fst) := by
        rw [hkdef]
        exact (sortKeysAsc_perm _).trans (sortKeysAsc_perm _)
      have hnd : (listNoteKeys .unavailable s pk now).Nodup :=
        hperm.nodup_iff.mpr (hbase ▸ hkeys)
      have hmem : ∀ k ∈ listNoteKeys .unavailable s pk now, k ∈ g.map Prod.fst :=
        fun k hk => hperm.subset hk
      obtain ⟨hcnt, hlook, _, _⟩ :=
        clearFold_spec pk (listNoteKeys .unavailable s pk now) s 0 g halo hnd hmem
      have hclear :
          clearNotes .unavailable s pk now =
            ((listNoteKeys .unavailable s pk now).foldl
              (fun acc k =>
                let r := removeNote .unavailable acc.2 pk k
                (if r.1 then acc.1 + 1 else acc.1, r.2))
              (0, s)) := rfl
      constructor
      · rw [hclear, hcnt, hlist]
        rw [List.length_map, (sortKeysAsc_perm (g.map Prod.fst)).length_eq,
          hperm.length_eq]
        simp
      · have hfilter : g.filter (fun e => e.1 ∉ listNoteKeys .unavailable s pk now) = [] := by
          apply List.filter_eq_nil_iff.mpr
          intro e he
          have : e.1 ∈ listNoteKeys .unavailable s pk now :=
            hperm.mem_iff.mpr (List.mem_map.mpr ⟨e, he, rfl⟩)
          simp [this]
        rw [listNotesData_fallback .unavailable (by simp) _ pk now]
        unfold getGroupedFromMemory
        rw [hclear, hlook, hfilter]
        rfl

/-- Witness for claim C5: scenario C — notes under exactly the keys `x`
and `y`, then `clearNotes` reports 2 deletions and `listGrouped` is
empty. -/
theorem claim_C5_removeAll_count_witness :
    (clearNotes .unavailable
        ⟨[], saveNoteInMemory (saveNoteInMemory [] "user-c" "x" ⟨"1", "a", 1⟩)
          "user-c" "y" ⟨"2", "b", 2⟩⟩
        "user-c" 0).1 = 2 ∧
      listNotesData .unavailable
        (clearNotes .unavailable
          ⟨[], saveNoteInMemory (saveNoteInMemory [] "user-c" "x" ⟨"1", "a", 1⟩)
            "user-c" "y" ⟨"2", "b", 2⟩⟩
          "user-c" 0).2 "user-c" 0 = [] := by
  have h := claim_C5_removeAll_count
    ⟨[], saveNoteInMemory (saveNoteInMemory [] "user-c" "x" ⟨"1", "a", 1⟩)
      "user-c" "y" ⟨"2", "b", 2⟩⟩
    "user-c" 0 (by decide)
  exact ⟨h.1.trans (by decide), h.2⟩

/-! ### Claim C9: non-empty-group invariant of the fallback store -/

theorem memInv_empty : MemInv [] := by
  intro e he
  simp at he

theorem memInv_save (mem : MemoryNotes) (pk key : String) (n : Note)
    (hinv : MemInv mem) : MemInv (saveNoteInMemory mem pk key n) := by
  intro e he e' he'
  unfold saveNoteInMemory at he
  rcases mem_aset he with hmem | heq
  · exact hinv e hmem e' he'
  · subst heq
    rcases mem_aset he' with hmem' | heq'
    · cases halo : alookup mem pk with
      | none =>
          rw [halo] at hmem'
          simp at hmem'
      | some userNotes =>
          rw [halo] at hmem'
          exact hinv (pk, userNotes) (mem_of_alookup_eq_some halo) e' hmem'
    · subst heq'
      simp

theorem memInv_remove (mem : MemoryNotes) (pk key : String) (hinv : MemInv mem) :
    MemInv (removeNoteMem mem pk key).2 := by
  cases halo : alookup mem pk with
  | none =>
      have hr : removeNoteMem mem pk key = (false, mem) := by
        simp [removeNoteMem, halo]
      rw [hr]
      exact hinv
  | some userNotes =>
      cases hkey : alookup userNotes key with
      | none =>
          have hr : removeNoteMem mem pk key = (false, mem) := by
            simp [removeNoteMem, halo, hkey]
          rw [hr]
          exact hinv
      | some ns =>
          have hr : removeNoteMem mem pk key =
              (true, aset mem pk (adelete userNotes key)) := by
            simp [removeNoteMem, halo, hkey]
          rw [hr]
          intro e he e' he'
          rcases mem_aset he with hmem | heq
          · exact hinv e hmem e' he'
          · subst heq
            exact hinv (pk, userNotes) (mem_of_alookup_eq_some halo)
              e' (mem_adelete he')

/-- Claim C9: in the in-memory fallback store, every logical key present
under a partition maps to a non-empty list of notes: the invariant holds
for the empty initial map, is preserved by `saveNoteInMemory` (which
appends one note) and by `removeNote`'s memory branch (which deletes a
whole key entry), hence holds in every reachable state; consequently
`listNoteKeys` never reports a key whose group is empty. -/
theorem claim_C9_nonempty_groups :
    MemInv [] ∧
      (∀ (mem : MemoryNotes) (pk key : String) (n : Note),
        MemInv mem → MemInv (saveNoteInMemory mem pk key n)) ∧
      (∀ (mem : MemoryNotes) (pk key : String),
        MemInv mem → MemInv (removeNoteMem mem pk key).2) ∧
      (∀ mem, ReachableMem mem → MemInv mem) ∧
      (∀ (mem : MemoryNotes) (remote : List StickyNoteEntity) (pk : String)
        (now : Nat) (k : String),
        MemInv mem →
        k ∈ listNoteKeys .unavailable ⟨remote, mem⟩ pk now →
        memNotesAt mem pk k ≠ []) := by
  refine ⟨memInv_empty, memInv_save, memInv_remove, ?_, ?_⟩
  · intro mem h
    induction h with
    | init => exact memInv_empty
    | save mem pk key n _ ih => exact memInv_save mem pk key n ih
    | remove mem pk key _ ih => exact memInv_remove mem pk key ih
  · intro mem remote pk now k hinv hk
    cases halo : alookup mem pk with
    | none =>
        have hkeys0 : listNoteKeys .unavailable ⟨remote, mem⟩ pk now = [] := by
          unfold listNoteKeys
          rw [listNotesData_fallback .unavailable (by simp) _ pk now]
          show sortKeysAsc ((getGroupedFromMemory mem pk).map Prod.fst) = []
          unfold getGroupedFromMemory
          rw [halo]
          rfl
        rw [hkeys0] at hk
        simp at hk
    | some userNotes =>
        have hkdef : listNoteKeys .unavailable ⟨remote, mem⟩ pk now =
            sortKeysAsc (sortKeysAsc (userNotes.map Prod.fst)) := by
          unfold listNoteKeys
          rw [listNotesData_fallback .unavailable (by simp) _ pk now]
          show sortKeysAsc ((getGroupedFromMemory mem pk).map Prod.fst) = _
          unfold getGroupedFromMemory
          rw [halo]
          show sortKeysAsc (((sortKeysAsc (userNotes.map Prod.fst)).map
            (fun k => (k, sortByTsDesc ((alookup userNotes k).getD [])))).map Prod.fst) = _
          rw [grouped_map_fst]
        rw [hkdef] at hk
        have hkmem : k ∈ userNotes.map Prod.fst :=
          ((sortKeysAsc_perm _).trans (sortKeysAsc_perm _)).subset hk
        obtain ⟨ns, hns⟩ := alookup_isSome_of_mem_keys hkmem
        have hne : ns ≠ [] :=
          hinv (pk, userNotes) (mem_of_alookup_eq_some halo)
            (k, ns) (mem_of_alookup_eq_some hns)
        unfold memNotesAt
        rw [halo]
        simpa [hns] using hne

/-- Witness for claim C9: the invariant holds after one save into the
empty map, by the theorem's preservation conjunct. -/
theorem claim_C9_nonempty_groups_witness :
    MemInv (saveNoteInMemory [] "user-w" "k" ⟨"i", "t", 1⟩) :=
  claim_C9_nonempty_groups.2.1 [] "user-w" "k" ⟨"i", "t", 1⟩ (by decide)

end StickyNotes
